import Mathlib

/-!
Shallow embedding of
`python/paddle/fluid/dygraph/dygraph_to_static/partial_program.py`
(PartialProgramLayer and helpers), together with proofs of the claims
about it.  Python objects are modelled as plain Lean data; the graph
framework collaborators that the file consumes (`Program.clone`,
`pack_sequence_as`, `flatten`, `backward.gradients`) are modelled from
the specification where their code is outside the embedded file, and
each such definition is marked in its doc comment.
-/

/-- A runtime tensor (`core.VarBase`): a named value carrying shape and
data.  Element data is abstracted to integers. -/
structure VarBase where
  name : String
  shape : List Int
  data : List Int
deriving DecidableEq

/-- A symbolic graph variable descriptor (`framework.Variable`); the
`is_parameter` flag models `isinstance(var, framework.Parameter)`. -/
structure Var where
  name : String
  persistable : Bool
  is_parameter : Bool
deriving DecidableEq

/-- A graph operator: type name, input/output argument-name lists, and
the optional `is_test` attribute (`has_is_test` models
`op.has_attr("is_test")`). -/
structure Op where
  type : String
  input_arg_names : List String
  output_arg_names : List String
  has_is_test : Bool
  is_test : Bool
deriving DecidableEq

/-- A block: an ordered operator list and the variable map, kept as the
iteration-ordered list of its variables. -/
structure Block where
  ops : List Op
  vars : List Var
deriving DecidableEq

/-- A program (`framework.Program`): an ordered collection of blocks. -/
structure Program where
  blocks : List Block
deriving DecidableEq

instance : Inhabited Block := ⟨⟨[], []⟩⟩

/-- Modelled from the spec: the reserved magic constant
`RETURN_NO_VALUE_MAGIC_NUM` from `return_transformer.py` (a float
`1.77113e+27` in the source, abstracted here to the corresponding
integer-valued reserved constant). -/
def RETURN_NO_VALUE_MAGIC_NUM : Int := 1771130000000000000000000000

/-- A Python value as seen by `_remove_no_value`: a runtime tensor, a
tuple, a list, `None`, or an opaque non-tensor value. -/
inductive PyVal where
  | varBase (t : VarBase)
  | tuple (xs : List PyVal)
  | list (xs : List PyVal)
  | pynone
  | other (s : String)

instance : Inhabited PyVal := ⟨PyVal.pynone⟩

/-- Embedding of `PartialProgramLayer._is_no_value`: true iff the value is a
`VarBase` of shape `[1]` whose single element is the magic constant. -/
def is_no_value : PyVal → Bool
  | PyVal.varBase t =>
      t.shape == [1] && t.data.getD 0 0 == RETURN_NO_VALUE_MAGIC_NUM
  | _ => false

/-- Embedding of `PartialProgramLayer._remove_no_value`: strips sentinel placeholders
from the restored output. -/
def remove_no_value (out_vars : PyVal) : PyVal :=
  match out_vars with
  | PyVal.varBase t =>
      if is_no_value (PyVal.varBase t) then PyVal.pynone else PyVal.varBase t
  | PyVal.tuple xs =>
      let res := xs.filter fun v => !is_no_value v
      let has_removed : Bool := decide (res.length < xs.length)
      if res.length == 0 && has_removed then PyVal.pynone
      else if res.length == 1 && has_removed then res.headI
      else PyVal.tuple res
  | PyVal.list xs =>
      let res := xs.filter fun v => !is_no_value v
      let has_removed : Bool := decide (res.length < xs.length)
      if res.length == 0 && has_removed then PyVal.pynone
      else if res.length == 1 && has_removed then res.headI
      else PyVal.list res
  | v => v

/-- The `Fake_var` placeholder built by `valid_vars` when a list is
empty (`core.VarBase(value=[1], name='Fake_var', ...)`). -/
def fake_var : VarBase := ⟨"Fake_var", [1], [1]⟩

/-- Embedding of `valid_vars`: returns the list unchanged when non-empty, otherwise
a single synthetic placeholder, because `run_program_op.InferShape`
requires `X`/`Out` not to be null. -/
def valid_vars (vars : List VarBase) : List VarBase :=
  if !vars.isEmpty then vars else [fake_var]

/-- The body of the scan in `_prune_unused_params`: whether some
operator of some block of `program` mentions `param.name` among its
input or output argument names. -/
def param_used (param : VarBase) (program : Program) : Bool :=
  program.blocks.any fun block =>
    block.ops.any fun op =>
      op.input_arg_names.contains param.name ||
        op.output_arg_names.contains param.name

/-- Embedding of `PartialProgramLayer._prune_unused_params`: keeps, in order, the
parameters mentioned by at least one operator of the program. -/
def prune_unused_params (params : List VarBase) (program : Program) :
    List VarBase :=
  params.filter fun param => param_used param program

/-- Embedding of `_change_is_test_status`: sets the `is_test` attribute of every
operator that declares it, in every block. -/
def change_is_test_status (program : Program) (is_test : Bool) : Program :=
  ⟨program.blocks.map fun block =>
    { block with
      ops := block.ops.map fun op =>
        if op.has_is_test then { op with is_test := is_test } else op }⟩

/-- Modelled from the spec: `Program.clone(for_test=True)` (framework
code outside the embedded file) produces a full duplicate of the graph
with `is_test` forced true on every operator that declares that
attribute, the operator list unchanged.  This is the body of
`PartialProgramLayer._clone_for_test`. -/
def clone_for_test (main_program : Program) : Program :=
  change_is_test_status main_program true

/-- Total number of operators over all blocks of a program. -/
def opCount (program : Program) : Nat :=
  (program.blocks.map fun block => block.ops.length).sum

/-- Embedding of `program.global_block()`: the first block. -/
def global_block (program : Program) : Block :=
  program.blocks.headD default

/-- Embedding of `block.var(name)` as a partial lookup in the block's variable map. -/
def Block.findVar (block : Block) (n : String) : Option Var :=
  block.vars.find? fun v => v.name == n

mutual
/-- A nested structure as handled by `NestSequence`: leaves of type `α`
inside arbitrarily nested sequences. -/
inductive Nested (α : Type) where
  | leaf (a : α)
  | node (xs : NestedList α)
/-- A list of nested structures (spelled out so that the inductive is a
mutual one, which keeps recursion and induction structural). -/
inductive NestedList (α : Type) where
  | nil
  | cons (hd : Nested α) (tl : NestedList α)
end

mutual
/-- Modelled from the spec: `paddle.fluid.layers.utils.flatten` (outside
the embedded file) — deterministic depth-first traversal collecting the
leaves of a nested structure.  This is `NestSequence.tolist`. -/
def flattenN : Nested α → List α
  | Nested.leaf a => [a]
  | Nested.node xs => flattenNL xs
/-- Depth-first leaf traversal of a list of nested structures. -/
def flattenNL : NestedList α → List α
  | NestedList.nil => []
  | NestedList.cons t ts => flattenN t ++ flattenNL ts
end

mutual
/-- Helper for `pack_sequence_as`: consume values positionally along the
template, returning the rebuilt structure and the unconsumed suffix. -/
def packAux : Nested α → List β → Option (Nested β × List β)
  | Nested.leaf _, [] => none
  | Nested.leaf _, v :: vs => some (Nested.leaf v, vs)
  | Nested.node xs, vs =>
      match packAuxList xs vs with
      | none => none
      | some (rs, rest) => some (Nested.node rs, rest)
/-- Helper for `pack_sequence_as` on lists of templates. -/
def packAuxList : NestedList α → List β → Option (NestedList β × List β)
  | NestedList.nil, vs => some (NestedList.nil, vs)
  | NestedList.cons t ts, vs =>
      match packAux t vs with
      | none => none
      | some (r, rest) =>
          match packAuxList ts rest with
          | none => none
          | some (rs, rest2) => some (NestedList.cons r rs, rest2)
end

/-- Modelled from the spec: `paddle.fluid.layers.utils.pack_sequence_as`
(outside the embedded file) — rebuilds a structure isomorphic to the
template with leaves replaced positionally by the given values, failing
(`none`, an arity error) when the value count does not match. -/
def pack_sequence_as (template : Nested α) (values : List β) :
    Option (Nested β) :=
  match packAux template values with
  | some (r, []) => some r
  | _ => none

/-- Embedding of `NestSequence.restore`: asserts that the value list has the same
length as the flattened template, then packs the values back into the
template's nested shape. -/
def NestSequence.restore (raw_input : Nested α) (value_list : List β) :
    Option (Nested β) :=
  if (flattenN raw_input).length = value_list.length then
    pack_sequence_as raw_input value_list
  else none

mutual
/-- Structural isomorphism of two nested structures (leaf positions and
nesting shape agree; leaf payloads are unconstrained). -/
def sameShape : Nested α → Nested β → Bool
  | Nested.leaf _, Nested.leaf _ => true
  | Nested.node xs, Nested.node ys => sameShapeList xs ys
  | _, _ => false
/-- Structural isomorphism of two lists of nested structures. -/
def sameShapeList : NestedList α → NestedList β → Bool
  | NestedList.nil, NestedList.nil => true
  | NestedList.cons x xs, NestedList.cons y ys =>
      sameShape x y && sameShapeList xs ys
  | _, _ => false
end

/-- Length of a `NestedList`. -/
def lengthNL : NestedList α → Nat
  | NestedList.nil => 0
  | NestedList.cons _ ts => lengthNL ts + 1

/-- A leaf of the output template handed to `NestSequence(outputs)`:
either a symbolic `framework.Variable` or an opaque non-tensor value. -/
inductive OutLeaf where
  | var (v : Var)
  | other (s : String)
deriving DecidableEq

/-- Whether a leaf is a tensor descriptor — the
`isinstance(var, (framework.Variable, core.VarBase))` test of
`NestSequence._get_var_ids`. -/
def isVarLeaf : OutLeaf → Bool
  | OutLeaf.var _ => true
  | OutLeaf.other _ => false

/-- Embedding of `NestSequence._get_var_ids` starting from index `i`: the indices of
tensor-descriptor leaves in the flattened list. -/
def varIdsFrom : Nat → List OutLeaf → List Nat
  | _, [] => []
  | i, l :: rest =>
      if isVarLeaf l then i :: varIdsFrom (i + 1) rest
      else varIdsFrom (i + 1) rest

/-- Embedding of `NestSequence.var_ids` of a flattened output template. -/
def varIds (leaves : List OutLeaf) : List Nat :=
  varIdsFrom 0 leaves

/-- A leaf of the restored output: an executed runtime tensor, or a
leftover symbolic variable, or an opaque non-tensor value. -/
inductive RLeaf where
  | tensor (t : VarBase)
  | variable (v : Var)
  | other (s : String)
deriving DecidableEq

instance : Inhabited RLeaf := ⟨RLeaf.other ""⟩

/-- Injection of the original template leaves into restored-output
leaves (the initial content of `flatten_outputs` in `_restore_out`). -/
def toRLeaf : OutLeaf → RLeaf
  | OutLeaf.var v => RLeaf.variable v
  | OutLeaf.other s => RLeaf.other s

/-- The indexed-assignment loop of `_restore_out`
(`for i, idx in enumerate(var_ids): flatten_outputs[idx] = out_vars[i]`),
as a fold of positional updates. -/
def scatterFold : List RLeaf → List (Nat × RLeaf) → List RLeaf
  | ls, [] => ls
  | ls, (idx, v) :: rest => scatterFold (ls.set idx v) rest

/-- Sequential characterization of the scatter: walk the template
leaves, replacing each tensor-descriptor leaf with the next executed
tensor and carrying non-tensor leaves through unchanged. -/
def scatterWalk : List OutLeaf → List VarBase → List RLeaf
  | [], _ => []
  | OutLeaf.var _ :: rest, o :: os => RLeaf.tensor o :: scatterWalk rest os
  | OutLeaf.var v :: rest, [] => RLeaf.variable v :: scatterWalk rest []
  | OutLeaf.other s :: rest, os => RLeaf.other s :: scatterWalk rest os

/-- The singleton unwrap at the end of `_restore_out`
(`if outs is not None and len(outs) == 1: outs = outs[0]`). -/
def unwrap1 : Nested RLeaf → Nested RLeaf
  | Nested.node (NestedList.cons x NestedList.nil) => x
  | r => r

/-- Embedding of `PartialProgramLayer._restore_out`: scatter the executed tensors
back into the recorded tensor positions of the flattened template,
restore the nested shape, and unwrap a one-element result. -/
def restore_out (template : Nested OutLeaf) (out_vars : List VarBase) :
    Option (Nested RLeaf) :=
  let leaves := flattenN template
  let flatten_outputs :=
    scatterFold (leaves.map toRLeaf)
      ((varIds leaves).zip (out_vars.map RLeaf.tensor))
  match NestSequence.restore template flatten_outputs with
  | none => none
  | some outs => some (unwrap1 outs)

/-- Embedding of `PartialProgramLayer._append_backward_desc`, parameterized by the
external autodiff collaborator `bw` (`backward.gradients`, outside the
embedded file): clone the base program with `is_test` cleared, collect
the tensor-typed declared outputs found in the global block, and invoke
the collaborator only when both the target list and the parameter list
are non-empty. -/
def append_backward_desc (bw : Program → List Var → Program)
    (outputs : Nested OutLeaf) (main_program : Program)
    (params : List VarBase) : Program :=
  let program := change_is_test_status main_program false
  let targets := (flattenN outputs).filterMap fun out =>
    match out with
    | OutLeaf.var v => (global_block program).findVar v.name
    | OutLeaf.other _ => none
  if !targets.isEmpty && !params.isEmpty then bw program targets
  else program

/-- Embedding of `PartialProgramLayer._check_params_all_inited`, restricted to the
block scan (the list/`VarBase` type checks are separate errors): the
name of the first `framework.Parameter`-typed variable of some block
whose name is missing from the supplied parameter names, `none` when no
error is raised.  The raised message names this variable. -/
def check_params_all_inited (params : List VarBase) (main_program : Program) :
    Option String :=
  let param_and_buffer_names := params.map fun p => p.name
  main_program.blocks.findSome? fun block =>
    (block.vars.find? fun v =>
      v.is_parameter && !param_and_buffer_names.contains v.name).map
      fun v => v.name

/-- The per-instance context fixed at construction of a
`PartialProgramLayer`: the autodiff collaborator, the immutable base
program, the output template, the (pruned) parameter list and the
double-gradient placeholder list. -/
structure Ctx where
  bw : Program → List Var → Program
  base : Program
  outputs : Nested OutLeaf
  params : List VarBase
  dgrads : List VarBase

/-- The mutable state of a `PartialProgramLayer` instance relevant to
lazy variant construction: the mode flag, the two `LazyInitialized`
caches (an instance attribute shadowing the descriptor after first
access), and ghost counters of how many times each derivation ran. -/
structure LayerState where
  training : Bool
  infer_cache : Option Program
  train_cache : Option Program
  infer_builds : Nat
  train_builds : Nat
deriving DecidableEq

/-- The state at the end of `PartialProgramLayer.__init__`: training
mode, neither variant built. -/
def initState : LayerState :=
  ⟨true, none, none, 0, 0⟩

/-- The training program derivation of `_train_program` (the
`_set_grad_type` call mutates parameter gradient metadata, not the
program, and is omitted). -/
def trainProgram (c : Ctx) : Program :=
  append_backward_desc c.bw c.outputs c.base c.params

/-- Access to the `_infer_program` lazy property: return the cached
value if the descriptor was already shadowed, otherwise run
`_clone_for_test` once and cache the result. -/
def get_infer (c : Ctx) (s : LayerState) : Program × LayerState :=
  match s.infer_cache with
  | some p => (p, s)
  | none =>
      let p := clone_for_test c.base
      (p, { s with infer_cache := some p,
                   infer_builds := s.infer_builds + 1 })

/-- Access to the `_train_program` lazy property: return the cached
value if the descriptor was already shadowed, otherwise run the
derivation once and cache the result. -/
def get_train (c : Ctx) (s : LayerState) : Program × LayerState :=
  match s.train_cache with
  | some p => (p, s)
  | none =>
      let p := trainProgram c
      (p, { s with train_cache := some p,
                   train_builds := s.train_builds + 1 })

/-- The `program` property: the training variant when `self.training`,
the inference variant otherwise. -/
def program_select (c : Ctx) (s : LayerState) : Program × LayerState :=
  if s.training then get_train c s else get_infer c s

/-- The argument record of the `run_program` operator traced by
`forward`. -/
structure RunProgramCall where
  X : List VarBase
  Params : List VarBase
  Out : List VarBase
  DOut : List VarBase
  global_blk : Program
  start_op_index : Nat
  end_op_index : Nat
  is_test : Bool

/-- Operator count of the global block (block 0), as in
`desc.block(0).op_size()`. -/
def block0OpSize (p : Program) : Nat :=
  (global_block p).ops.length

/-- Embedding of `PartialProgramLayer.forward` up to the interpreter hand-off: reads
`self.program` (mode-dependent) for the global block, reads
`self._infer_program` for the operator-range end bound, and wraps every
tensor list with `valid_vars`.  Input preparation and output placeholder
allocation are abstracted into the `in_vars`/`out_vars` arguments. -/
def forward_call (c : Ctx) (in_vars out_vars : List VarBase)
    (s : LayerState) : RunProgramCall × LayerState :=
  let pr := program_select c s
  let inf := get_infer c pr.2
  (⟨valid_vars in_vars, valid_vars c.params, valid_vars out_vars,
    valid_vars c.dgrads, pr.1, 0, block0OpSize inf.1, !s.training⟩,
   inf.2)

/-- An externally observable action on one instance: a `forward` call,
or a toggle of the `training` flag by the caller. -/
inductive Event where
  | forward (in_vars out_vars : List VarBase)
  | setTraining (b : Bool)

/-- State transition of one event. -/
def step (c : Ctx) (s : LayerState) : Event → LayerState
  | Event.forward ins outs => (forward_call c ins outs s).2
  | Event.setTraining b => { s with training := b }

/-- Run a sequence of events from a state. -/
def run (c : Ctx) (es : List Event) (s : LayerState) : LayerState :=
  es.foldl (step c) s

/-- Invariant tying a layer state to its construction context: each
variant was built at most once, an unbuilt variant has a zero build
counter, and a built cache holds exactly the corresponding derived
program. -/
def LazyInv (c : Ctx) (s : LayerState) : Prop :=
  s.infer_builds ≤ 1 ∧ s.train_builds ≤ 1 ∧
  (s.infer_cache = none → s.infer_builds = 0) ∧
  (s.train_cache = none → s.train_builds = 0) ∧
  (∀ p, s.infer_cache = some p → p = clone_for_test c.base) ∧
  (∀ p, s.train_cache = some p → p = trainProgram c)

/-- A sentinel tensor: shape `[1]`, single element equal to the magic
constant. -/
def sentinelVB : VarBase := ⟨"sentinel", [1], [RETURN_NO_VALUE_MAGIC_NUM]⟩

/-- A plain (non-sentinel) runtime tensor used in concrete instances. -/
def xVB : VarBase := ⟨"x", [1], [5]⟩

/-- A second plain runtime tensor used in concrete instances. -/
def yVB : VarBase := ⟨"y", [2], [3, 4]⟩

/-- A parameter used in concrete instances. -/
def wParam : VarBase := ⟨"w", [1], [2]⟩

/-- An operator mentioning `w` among its inputs. -/
def mulOp : Op := ⟨"mul", ["x", "w"], ["y"], false, false⟩

/-- An operator with an `is_test` attribute and no mention of `w`. -/
def dropoutOp : Op := ⟨"dropout", ["y"], ["z"], true, false⟩

/-- A concrete base program with one block of two operators. -/
def progEx : Program := ⟨[⟨[mulOp, dropoutOp], [⟨"y", false, false⟩]⟩]⟩

/-- A concrete program whose only block defines a persistable
non-`Parameter` variable (a buffer). -/
def progBuf : Program := ⟨[⟨[], [⟨"buf", true, false⟩]⟩]⟩

/-- A concrete program whose only block defines a `Parameter`-typed
variable named `w`. -/
def progParam : Program := ⟨[⟨[], [⟨"w", true, true⟩]⟩]⟩

/-- A concrete output template: the one-element sequence `[y]`. -/
def tmplSingle : Nested OutLeaf :=
  Nested.node (NestedList.cons (Nested.leaf (OutLeaf.var ⟨"y", false, false⟩))
    NestedList.nil)

/-- A concrete construction context over `progEx`. -/
def ctxEx : Ctx :=
  ⟨fun p _ => p, progEx, tmplSingle, [wParam], []⟩

/-- A concrete layer state whose inference cache is already populated. -/
def builtState : LayerState :=
  ⟨true, some (clone_for_test ctxEx.base), none, 1, 0⟩

/-- A concrete output template with two leaves: a Variable and an
opaque non-tensor value. -/
def tmplPair : Nested OutLeaf :=
  Nested.node (NestedList.cons (Nested.leaf (OutLeaf.var ⟨"y", false, false⟩))
    (NestedList.cons (Nested.leaf (OutLeaf.other "k")) NestedList.nil))

mutual
theorem packAux_flatten (t : Nested α) (rest : List α) :
    packAux t (flattenN t ++ rest) = some (t, rest) := by
  cases t with
  | leaf a => rfl
  | node xs =>
      have h := packAuxList_flatten xs rest
      simp [flattenN, packAux, h]
theorem packAuxList_flatten (ts : NestedList α) (rest : List α) :
    packAuxList ts (flattenNL ts ++ rest) = some (ts, rest) := by
  cases ts with
  | nil => rfl
  | cons t ts' =>
      have h1 := packAux_flatten t (flattenNL ts' ++ rest)
      have h2 := packAuxList_flatten ts' rest
      simp [flattenNL, packAuxList, List.append_assoc, h1, h2]
end

mutual
theorem packAux_sound (t : Nested α) (vs : List β) (r : Nested β)
    (rest : List β) (h : packAux t vs = some (r, rest)) :
    flattenN r ++ rest = vs ∧ sameShape r t = true := by
  cases t with
  | leaf a =>
      cases vs with
      | nil => simp [packAux] at h
      | cons v vw =>
          simp [packAux] at h
          obtain ⟨hr, hrest⟩ := h
          subst hr; subst hrest
          simp [flattenN, sameShape]
  | node xs =>
      cases hx : packAuxList xs vs with
      | none => simp [packAux, hx] at h
      | some pr =>
          obtain ⟨rs, rest'⟩ := pr
          simp [packAux, hx] at h
          obtain ⟨hr, hrest⟩ := h
          subst hr; subst hrest
          have := packAuxList_sound xs vs rs rest' hx
          simpa [flattenN, sameShape] using this
theorem packAuxList_sound (ts : NestedList α) (vs : List β)
    (rs : NestedList β) (rest : List β)
    (h : packAuxList ts vs = some (rs, rest)) :
    flattenNL rs ++ rest = vs ∧ sameShapeList rs ts = true := by
  cases ts with
  | nil =>
      simp [packAuxList] at h
      obtain ⟨hr, hrest⟩ := h
      subst hr; subst hrest
      simp [flattenNL, sameShapeList]
  | cons t ts' =>
      cases hx : packAux t vs with
      | none => simp [packAuxList, hx] at h
      | some pr =>
          obtain ⟨r1, rest1⟩ := pr
          cases hy : packAuxList ts' rest1 with
          | none => simp [packAuxList, hx, hy] at h
          | some pr2 =>
              obtain ⟨rs2, rest2⟩ := pr2
              simp [packAuxList, hx, hy] at h
              obtain ⟨hr, hrest⟩ := h
              subst hr; subst hrest
              have ha := packAux_sound t vs r1 rest1 hx
              have hb := packAuxList_sound ts' rest1 rs2 rest2 hy
              refine ⟨?_, ?_⟩
              · rw [flattenNL, List.append_assoc, hb.1, ha.1]
              · simp [sameShapeList, ha.2, hb.2]
end

mutual
theorem packAux_total (t : Nested α) (vs : List β)
    (h : (flattenN t).length ≤ vs.length) :
    ∃ r rest, packAux t vs = some (r, rest) ∧
      rest.length = vs.length - (flattenN t).length := by
  cases t with
  | leaf a =>
      cases vs with
      | nil => simp [flattenN] at h
      | cons v vw => exact ⟨Nested.leaf v, vw, rfl, by simp [flattenN]⟩
  | node xs =>
      obtain ⟨rs, rest, hp, hl⟩ :=
        packAuxList_total xs vs (by simpa [flattenN] using h)
      exact ⟨Nested.node rs, rest, by simp [packAux, hp],
        by simpa [flattenN] using hl⟩
theorem packAuxList_total (ts : NestedList α) (vs : List β)
    (h : (flattenNL ts).length ≤ vs.length) :
    ∃ rs rest, packAuxList ts vs = some (rs, rest) ∧
      rest.length = vs.length - (flattenNL ts).length := by
  cases ts with
  | nil => exact ⟨NestedList.nil, vs, rfl, by simp [flattenNL]⟩
  | cons t ts' =>
      have hlen : (flattenN t).length + (flattenNL ts').length ≤
          vs.length := by
        simpa [flattenNL] using h
      obtain ⟨r, rest1, hp1, hl1⟩ :=
        packAux_total t vs (by omega)
      obtain ⟨rs, rest2, hp2, hl2⟩ :=
        packAuxList_total ts' rest1 (by omega)
      refine ⟨NestedList.cons r rs, rest2, ?_, ?_⟩
      · simp [packAuxList, hp1, hp2]
      · simp only [flattenNL, List.length_append]
        omega
end

theorem pack_sound (t : Nested α) (vs : List β) (r : Nested β)
    (h : pack_sequence_as t vs = some r) :
    flattenN r = vs ∧ sameShape r t = true := by
  rw [pack_sequence_as] at h
  cases hp : packAux t vs with
  | none => rw [hp] at h; simp at h
  | some pr =>
      obtain ⟨r', rest⟩ := pr
      rw [hp] at h
      cases rest with
      | cons a as => simp at h
      | nil =>
          simp at h
          subst h
          have := packAux_sound t vs r' [] hp
          simpa using this

theorem pack_total (t : Nested α) (vs : List β)
    (h : vs.length = (flattenN t).length) :
    ∃ r, pack_sequence_as t vs = some r := by
  obtain ⟨r, rest, hp, hl⟩ := packAux_total t vs (le_of_eq h.symm)
  have : rest = [] := List.eq_nil_of_length_eq_zero (by omega)
  subst this
  exact ⟨r, by simp [pack_sequence_as, hp]⟩

theorem restore_sound (t : Nested α) (vs : List β) (r : Nested β)
    (h : NestSequence.restore t vs = some r) :
    flattenN r = vs ∧ sameShape r t = true ∧
      vs.length = (flattenN t).length := by
  rw [NestSequence.restore] at h
  split at h
  · next heq => exact ⟨(pack_sound t vs r h).1, (pack_sound t vs r h).2,
      heq.symm⟩
  · exact absurd h (by simp)

theorem restore_total (t : Nested α) (vs : List β)
    (h : vs.length = (flattenN t).length) :
    ∃ r, NestSequence.restore t vs = some r := by
  obtain ⟨r, hr⟩ := pack_total t vs h
  exact ⟨r, by rw [NestSequence.restore, if_pos h.symm]; exact hr⟩

/-- C6: for every nested structure `s`, restoring `s`'s own flattened
sequence reproduces `s` exactly, and whenever restore succeeds on a
value list `flat`, the restored structure flattens to a sequence of the
same length as `flat`. -/
theorem C6_flatten_restore_roundtrip :
    (∀ (α : Type) (s : Nested α),
      NestSequence.restore s (flattenN s) = some s) ∧
    (∀ (α β : Type) (t : Nested α) (flat : List β) (r : Nested β),
      NestSequence.restore t flat = some r →
      (flattenN r).length = flat.length) := by
  constructor
  · intro α s
    rw [NestSequence.restore, if_pos rfl]
    have h := packAux_flatten s ([] : List α)
    rw [List.append_nil] at h
    simp [pack_sequence_as, h]
  · intro α β t flat r h
    exact congrArg List.length (restore_sound t flat r h).1

theorem C6_flatten_restore_roundtrip_witness :
    (flattenN (Nested.node (NestedList.cons (Nested.leaf true)
      NestedList.nil))).length = [true].length :=
  C6_flatten_restore_roundtrip.2 Nat Bool
    (Nested.node (NestedList.cons (Nested.leaf 0) NestedList.nil))
    [true] (Nested.node (NestedList.cons (Nested.leaf true)
      NestedList.nil)) rfl

/-- C7: restoring a value list against a structure template fails
(returns the error value, never retried) exactly when the value count
differs from the template's leaf count, and otherwise succeeds with a
structure isomorphic to the template whose leaves are the supplied
values in order. -/
theorem C7_restore_arity_check (α β : Type) (t : Nested α)
    (vs : List β) :
    (NestSequence.restore t vs = none ↔
      vs.length ≠ (flattenN t).length) ∧
    (vs.length = (flattenN t).length →
      ∃ r, NestSequence.restore t vs = some r ∧ sameShape r t = true ∧
        flattenN r = vs) := by
  constructor
  · constructor
    · intro hn heq
      obtain ⟨r, hr⟩ := restore_total t vs heq
      rw [hn] at hr
      exact Option.noConfusion hr
    · intro hne
      rw [NestSequence.restore, if_neg fun hh => hne hh.symm]
  · intro heq
    obtain ⟨r, hr⟩ := restore_total t vs heq
    obtain ⟨h1, h2, _⟩ := restore_sound t vs r hr
    exact ⟨r, hr, h2, h1⟩

theorem C7_restore_arity_check_witness :
    NestSequence.restore (Nested.leaf 0) ([] : List Bool) = none ∧
    ∃ r, NestSequence.restore (Nested.leaf 0) [true] = some r ∧
      sameShape r (Nested.leaf (0 : Nat)) = true ∧ flattenN r = [true] :=
  ⟨(C7_restore_arity_check Nat Bool (Nested.leaf 0) []).1.mpr
      (by decide),
   (C7_restore_arity_check Nat Bool (Nested.leaf 0) [true]).2
      (by decide)⟩

/-- C1: a value is a no-value sentinel iff it is a runtime tensor of
shape `[1]` whose single element is the reserved magic constant; a
single sentinel filters to the explicit no-value result; on a tuple or
list the sentinel entries are removed (exactly them, preserving order
and container kind); zero survivors with at least one removal give the
no-value result; one survivor with at least one removal is unwrapped;
otherwise the filtered collection is returned in its original kind. -/
theorem C1_remove_no_value_spec :
    (∀ v, is_no_value v = true ↔
      ∃ t : VarBase, v = PyVal.varBase t ∧ t.shape = [1] ∧
        t.data.getD 0 0 = RETURN_NO_VALUE_MAGIC_NUM) ∧
    (∀ t : VarBase, is_no_value (PyVal.varBase t) = true →
      remove_no_value (PyVal.varBase t) = PyVal.pynone) ∧
    (∀ t : VarBase, is_no_value (PyVal.varBase t) = false →
      remove_no_value (PyVal.varBase t) = PyVal.varBase t) ∧
    (∀ xs : List PyVal,
      (xs.filter fun v => !is_no_value v).Sublist xs ∧
      (∀ v, v ∈ xs.filter (fun v => !is_no_value v) ↔
        v ∈ xs ∧ is_no_value v = false) ∧
      ((xs.filter fun v => !is_no_value v) = [] ∧ xs ≠ [] →
        remove_no_value (PyVal.tuple xs) = PyVal.pynone ∧
        remove_no_value (PyVal.list xs) = PyVal.pynone) ∧
      (∀ y, (xs.filter fun v => !is_no_value v) = [y] ∧
          (xs.filter fun v => !is_no_value v).length < xs.length →
        remove_no_value (PyVal.tuple xs) = y ∧
        remove_no_value (PyVal.list xs) = y) ∧
      ((xs.filter fun v => !is_no_value v).length = xs.length ∨
          2 ≤ (xs.filter fun v => !is_no_value v).length →
        remove_no_value (PyVal.tuple xs) =
          PyVal.tuple (xs.filter fun v => !is_no_value v) ∧
        remove_no_value (PyVal.list xs) =
          PyVal.list (xs.filter fun v => !is_no_value v))) := by
  refine ⟨?_, ?_, ?_, ?_⟩
  · intro v
    cases v with
    | varBase t =>
        simp only [is_no_value, Bool.and_eq_true, beq_iff_eq]
        constructor
        · rintro ⟨h1, h2⟩; exact ⟨t, rfl, h1, h2⟩
        · rintro ⟨t2, ht, h1, h2⟩
          cases ht
          exact ⟨h1, h2⟩
    | tuple xs => simp [is_no_value]
    | list xs => simp [is_no_value]
    | pynone => simp [is_no_value]
    | other s => simp [is_no_value]
  · intro t h
    simp [remove_no_value, h]
  · intro t h
    simp [remove_no_value, h]
  · intro xs
    refine ⟨List.filter_sublist xs, ?_, ?_, ?_, ?_⟩
    · intro v
      simp [List.mem_filter]
    · rintro ⟨hres, hne⟩
      have hpos : 0 < xs.length := List.length_pos.mpr hne
      constructor <;> simp [remove_no_value, hres, hpos]
    · rintro y ⟨hres, hlt⟩
      rw [hres] at hlt
      simp only [List.length_singleton] at hlt
      constructor <;> simp [remove_no_value, hres, hlt]
    · intro h
      have hle : (xs.filter fun v => !is_no_value v).length ≤
          xs.length := List.length_filter_le _ _
      rcases h with heq | h2
      · have hnlt : ¬ (xs.filter fun v => !is_no_value v).length <
            xs.length := by omega
        constructor <;> simp [remove_no_value, hnlt]
      · have h0 : (xs.filter fun v => !is_no_value v).length ≠ 0 := by
          omega
        have h1 : (xs.filter fun v => !is_no_value v).length ≠ 1 := by
          omega
        constructor <;> simp [remove_no_value, h0, h1]

theorem C1_remove_no_value_spec_witness :
    remove_no_value (PyVal.tuple [PyVal.varBase sentinelVB,
      PyVal.varBase xVB]) = PyVal.varBase xVB :=
  ((C1_remove_no_value_spec.2.2.2
      [PyVal.varBase sentinelVB, PyVal.varBase xVB]).2.2.2.1
    (PyVal.varBase xVB) ⟨rfl, by decide⟩).1

/-- C2: pruning keeps, as an ordered sublist of the input, exactly the
parameters whose name appears among the input- or output-argument names
of at least one operator in some block of the graph, and pruning is
idempotent. -/
theorem C2_prune_unused_params_spec (P : List VarBase) (G : Program) :
    (prune_unused_params P G).Sublist P ∧
    (∀ p, p ∈ prune_unused_params P G ↔
      p ∈ P ∧ ∃ b ∈ G.blocks, ∃ op ∈ b.ops,
        p.name ∈ op.input_arg_names ∨ p.name ∈ op.output_arg_names) ∧
    prune_unused_params (prune_unused_params P G) G =
      prune_unused_params P G := by
  refine ⟨List.filter_sublist P, ?_, ?_⟩
  · intro p
    rw [prune_unused_params, List.mem_filter]
    constructor
    · rintro ⟨hm, hu⟩
      refine ⟨hm, ?_⟩
      simpa [param_used, List.any_eq_true] using hu
    · rintro ⟨hm, hu⟩
      refine ⟨hm, ?_⟩
      simpa [param_used, List.any_eq_true] using hu
  · apply List.filter_eq_self.mpr
    intro a ha
    exact (List.mem_filter.mp ha).2

theorem C2_prune_unused_params_spec_witness :
    wParam ∈ prune_unused_params [wParam] progEx :=
  ((C2_prune_unused_params_spec [wParam] progEx).2.1 wParam).mpr
    ⟨List.mem_singleton.mpr rfl,
     ⟨[mulOp, dropoutOp], [⟨"y", false, false⟩]⟩, by decide,
     mulOp, by decide, Or.inl (by decide)⟩

/-- C9: every interpreter hand-off of `forward` has non-empty input,
parameter, output and double-gradient collections; a non-empty list is
passed through unchanged and an empty one is replaced by the single
synthetic placeholder. -/
theorem C9_forward_nonempty_vars (c : Ctx) (in_vars out_vars : List VarBase)
    (s : LayerState) :
    ((forward_call c in_vars out_vars s).1.X ≠ [] ∧
     (forward_call c in_vars out_vars s).1.Params ≠ [] ∧
     (forward_call c in_vars out_vars s).1.Out ≠ [] ∧
     (forward_call c in_vars out_vars s).1.DOut ≠ []) ∧
    (∀ l : List VarBase, l ≠ [] → valid_vars l = l) ∧
    valid_vars [] = [fake_var] := by
  have hne : ∀ l : List VarBase, valid_vars l ≠ [] := by
    intro l
    cases l <;> simp [valid_vars]
  refine ⟨⟨?_, ?_, ?_, ?_⟩, ?_, rfl⟩
  · exact hne in_vars
  · exact hne c.params
  · exact hne out_vars
  · exact hne c.dgrads
  · intro l hl
    cases l with
    | nil => exact absurd rfl hl
    | cons a as => simp [valid_vars]

theorem C9_forward_nonempty_vars_witness :
    valid_vars [fake_var] = [fake_var] :=
  (C9_forward_nonempty_vars ctxEx [] [] initState).2.1 [fake_var]
    (by decide)

theorem opCount_change_is_test (p : Program) (b : Bool) :
    opCount (change_is_test_status p b) = opCount p := by
  rw [opCount, change_is_test_status, List.map_map]
  refine congrArg List.sum (List.map_congr_left ?_)
  intro blk _
  simp

/-- C5: with an empty pruned parameter list, or with no tensor-typed
Variable among the declared outputs, building the training variant
never invokes the backward collaborator (the result is the cloned base
graph with `is_test` cleared, whatever the collaborator would do), and
with zero parameters the training variant's operator count equals the
inference variant's. -/
theorem C5_no_backward_without_params (bw : Program → List Var → Program)
    (outputs : Nested OutLeaf) (base : Program) (params : List VarBase) :
    (params = [] ∨ (∀ l ∈ flattenN outputs, isVarLeaf l = false) →
      append_backward_desc bw outputs base params =
        change_is_test_status base false) ∧
    (params = [] →
      opCount (append_backward_desc bw outputs base params) =
        opCount (clone_for_test base)) := by
  have hmain : params = [] ∨ (∀ l ∈ flattenN outputs, isVarLeaf l = false) →
      append_backward_desc bw outputs base params =
        change_is_test_status base false := by
    intro h
    rcases h with hp | hout
    · subst hp
      simp [append_backward_desc]
    · have ht : ((flattenN outputs).filterMap fun out =>
          match out with
          | OutLeaf.var v =>
              (global_block (change_is_test_status base false)).findVar
                v.name
          | OutLeaf.other _ => none) = [] := by
        rw [List.filterMap_eq_nil_iff]
        intro l hl
        cases l with
        | var v => exact absurd (hout _ hl) (by simp [isVarLeaf])
        | other s => rfl
      simp [append_backward_desc, ht]
  refine ⟨hmain, ?_⟩
  intro hp
  rw [hmain (Or.inl hp), clone_for_test, opCount_change_is_test,
    opCount_change_is_test]

theorem C5_no_backward_without_params_witness :
    opCount (append_backward_desc (fun _ _ => ⟨[]⟩) tmplSingle progEx []) =
      opCount (clone_for_test progEx) :=
  (C5_no_backward_without_params (fun _ _ => ⟨[]⟩) tmplSingle progEx []).2
    rfl

/-- C8 counterexample: `progBuf`'s only block defines a persistable
Variable (`buf`, a buffer, not a `framework.Parameter`) that is absent
from the (empty) supplied parameter set, yet the construction check
raises no error — contradicting the claim that construction fails
whenever a persistable Variable of the base graph is missing from the
parameter set. -/
theorem C8_persistable_buffer_counterexample :
    check_params_all_inited [] progBuf = none ∧
    ∃ b ∈ progBuf.blocks, ∃ v ∈ b.vars, v.persistable = true ∧
      ∀ p ∈ ([] : List VarBase), p.name ≠ v.name := by
  refine ⟨rfl, ⟨[], [⟨"buf", true, false⟩]⟩, ?_, ⟨"buf", true, false⟩,
    ?_, rfl, ?_⟩
  · simp [progBuf]
  · simp
  · simp

/-- C8 (amended): construction raises the error, whose message names
the offending Variable, iff the base graph defines a
`framework.Parameter`-typed Variable (not merely a persistable one)
whose name is missing from the supplied parameter set; any reported
name is that of such a Variable. -/
theorem C8_check_params_all_inited_spec (params : List VarBase)
    (G : Program) :
    (check_params_all_inited params G = none ↔
      ∀ b ∈ G.blocks, ∀ v ∈ b.vars, v.is_parameter = true →
        v.name ∈ params.map fun p => p.name) ∧
    (∀ n, check_params_all_inited params G = some n →
      (∃ b ∈ G.blocks, ∃ v ∈ b.vars, v.is_parameter = true ∧
        v.name = n) ∧ n ∉ params.map fun p => p.name) := by
  constructor
  · rw [check_params_all_inited, List.findSome?_eq_none_iff]
    constructor
    · intro h b hb v hv hpar
      have hfind := h b hb
      rw [Option.map_eq_none', List.find?_eq_none] at hfind
      have h2 := hfind v hv
      simpa [hpar, List.contains, List.elem_eq_mem] using h2
    · intro h b hb
      rw [Option.map_eq_none', List.find?_eq_none]
      intro v hv
      simp only [Bool.and_eq_true, Bool.not_eq_true', Bool.not_eq_true,
        List.contains, List.elem_eq_mem, decide_eq_false_iff_not,
        not_and, Classical.not_not]
      intro hpar
      exact h b hb v hv hpar
  · intro n h
    rw [check_params_all_inited] at h
    obtain ⟨b, hb, hfb⟩ := List.exists_of_findSome?_eq_some h
    rw [Option.map_eq_some'] at hfb
    obtain ⟨v, hfv, hvn⟩ := hfb
    have hmem := List.mem_of_find?_eq_some hfv
    have hpred := List.find?_some hfv
    simp only [Bool.and_eq_true, Bool.not_eq_true', List.contains,
      List.elem_eq_mem, decide_eq_false_iff_not] at hpred
    refine ⟨⟨b, hb, v, hmem, hpred.1, hvn⟩, ?_⟩
    subst hvn
    exact hpred.2

theorem C8_check_params_all_inited_spec_witness :
    (∃ b ∈ progParam.blocks, ∃ v ∈ b.vars, v.is_parameter = true ∧
      v.name = "w") ∧
    "w" ∉ ([] : List VarBase).map fun p => p.name :=
  (C8_check_params_all_inited_spec [] progParam).2 "w" rfl

theorem get_infer_inv (c : Ctx) (s : LayerState) (h : LazyInv c s) :
    LazyInv c (get_infer c s).2 := by
  obtain ⟨h1, h2, h3, h4, h5, h6⟩ := h
  cases hc : s.infer_cache with
  | some p => simpa [get_infer, hc] using ⟨h1, h2, h3, h4, h5, h6⟩
  | none =>
      have hb := h3 hc
      refine ⟨?_, ?_, ?_, ?_, ?_, ?_⟩
      · simp [get_infer, hc, hb]
      · simpa [get_infer, hc] using h2
      · simp [get_infer, hc]
      · simpa [get_infer, hc] using h4
      · intro p hp
        simp [get_infer, hc] at hp
        exact hp.symm
      · simpa [get_infer, hc] using h6

theorem get_train_inv (c : Ctx) (s : LayerState) (h : LazyInv c s) :
    LazyInv c (get_train c s).2 := by
  obtain ⟨h1, h2, h3, h4, h5, h6⟩ := h
  cases hc : s.train_cache with
  | some p => simpa [get_train, hc] using ⟨h1, h2, h3, h4, h5, h6⟩
  | none =>
      have hb := h4 hc
      refine ⟨?_, ?_, ?_, ?_, ?_, ?_⟩
      · simpa [get_train, hc] using h1
      · simp [get_train, hc, hb]
      · simpa [get_train, hc] using h3
      · simp [get_train, hc]
      · simpa [get_train, hc] using h5
      · intro p hp
        simp [get_train, hc] at hp
        exact hp.symm

theorem get_infer_cache_of_inv (c : Ctx) (s : LayerState)
    (h : ∀ p, s.infer_cache = some p → p = clone_for_test c.base) :
    (get_infer c s).1 = clone_for_test c.base ∧
    (get_infer c s).2.infer_cache = some (clone_for_test c.base) := by
  cases hc : s.infer_cache with
  | some p =>
      have := h p hc
      subst this
      simp [get_infer, hc]
  | none => simp [get_infer, hc]

theorem program_select_infer_fields (c : Ctx) (s : LayerState) :
    (program_select c s).2.infer_cache = s.infer_cache ∨
    (program_select c s).2 = (get_infer c s).2 := by
  rw [program_select]
  split
  · left
    cases hc : s.train_cache <;> simp [get_train, hc]
  · right
    rfl

theorem step_inv (c : Ctx) (s : LayerState) (e : Event)
    (h : LazyInv c s) : LazyInv c (step c s e) := by
  cases e with
  | setTraining b =>
      obtain ⟨h1, h2, h3, h4, h5, h6⟩ := h
      exact ⟨h1, h2, h3, h4, h5, h6⟩
  | forward ins outs =>
      have h1 : LazyInv c (program_select c s).2 := by
        rw [program_select]
        split
        · exact get_train_inv c s h
        · exact get_infer_inv c s h
      exact get_infer_inv c _ h1

theorem run_inv (c : Ctx) (es : List Event) (s : LayerState)
    (h : LazyInv c s) : LazyInv c (run c es s) := by
  induction es generalizing s with
  | nil => exact h
  | cons e es ih => exact ih _ (step_inv c s e h)

theorem init_inv (c : Ctx) : LazyInv c initState := by
  refine ⟨?_, ?_, ?_, ?_, ?_, ?_⟩ <;> simp [initState]

/-- C3: over any interleaving of forward calls and training-flag
toggles starting from construction, each variant derivation runs at
most once, and any access to an already-built variant returns the
cached program without changing the state. -/
theorem C3_variants_built_at_most_once (c : Ctx) (es : List Event) :
    (run c es initState).infer_builds ≤ 1 ∧
    (run c es initState).train_builds ≤ 1 ∧
    (∀ (s : LayerState) (p : Program), s.infer_cache = some p →
      get_infer c s = (p, s)) ∧
    (∀ (s : LayerState) (p : Program), s.train_cache = some p →
      get_train c s = (p, s)) := by
  have h := run_inv c es initState (init_inv c)
  refine ⟨h.1, h.2.1, ?_, ?_⟩
  · intro s p hp
    simp [get_infer, hp]
  · intro s p hp
    simp [get_train, hp]

theorem C3_variants_built_at_most_once_witness :
    get_infer ctxEx builtState = (clone_for_test ctxEx.base, builtState) :=
  (C3_variants_built_at_most_once ctxEx []).2.2.1 builtState
    (clone_for_test ctxEx.base) rfl

/-- C10: every forward call forces the inference variant to be built,
whatever the current mode, because the end bound of the operator range
is read from the inference variant's operator count; after the call the
inference cache holds the inference variant, and the end bound passed
to the interpreter is its global-block operator count. -/
theorem C10_forward_forces_infer_build (c : Ctx) (es : List Event)
    (ins outs : List VarBase) :
    ((forward_call c ins outs (run c es initState)).2).infer_cache =
      some (clone_for_test c.base) ∧
    (forward_call c ins outs (run c es initState)).1.end_op_index =
      block0OpSize (clone_for_test c.base) := by
  have hinv := run_inv c es initState (init_inv c)
  have hinv2 : LazyInv c (program_select c (run c es initState)).2 := by
    rw [program_select]
    split
    · exact get_train_inv c _ hinv
    · exact get_infer_inv c _ hinv
  have hres := get_infer_cache_of_inv c
    (program_select c (run c es initState)).2 hinv2.2.2.2.2.1
  refine ⟨?_, ?_⟩
  · show (get_infer c (program_select c (run c es initState)).2).2.infer_cache = _
    exact hres.2
  · show block0OpSize
      (get_infer c (program_select c (run c es initState)).2).1 = _
    rw [hres.1]

theorem varIdsFrom_succ (ls : List OutLeaf) (i : Nat) :
    varIdsFrom (i + 1) ls = (varIdsFrom i ls).map (fun n => n + 1) := by
  induction ls generalizing i with
  | nil => rfl
  | cons l rest ih =>
      cases hl : isVarLeaf l <;>
        simp [varIdsFrom, hl, ih (i + 1)]

theorem scatterFold_shift (ids : List Nat) (vs : List RLeaf) (x : RLeaf)
    (ls : List RLeaf) :
    scatterFold (x :: ls) ((ids.map fun n => n + 1).zip vs) =
      x :: scatterFold ls (ids.zip vs) := by
  induction ids generalizing vs ls with
  | nil => rfl
  | cons i is ih =>
      cases vs with
      | nil => rfl
      | cons v vw =>
          show scatterFold ((x :: ls).set (i + 1) v) _ = _
          rw [List.set_cons_succ]
          exact ih vw (ls.set i v)

theorem scatter_eq_walk (leaves : List OutLeaf) (outs : List VarBase)
    (h : outs.length = (varIds leaves).length) :
    scatterFold (leaves.map toRLeaf)
      ((varIds leaves).zip (outs.map RLeaf.tensor)) =
      scatterWalk leaves outs := by
  induction leaves generalizing outs with
  | nil =>
      simp [varIds, varIdsFrom, scatterFold, scatterWalk]
  | cons l rest ih =>
      cases l with
      | other s =>
          have hv : varIds (OutLeaf.other s :: rest) =
              (varIds rest).map (fun n => n + 1) := by
            simp only [varIds, varIdsFrom, isVarLeaf]
            exact varIdsFrom_succ rest 0
          rw [hv] at h ⊢
          rw [List.map_cons, toRLeaf, scatterFold_shift]
          rw [scatterWalk]
          rw [ih outs (by simpa using h)]
      | var v =>
          have hv : varIds (OutLeaf.var v :: rest) =
              0 :: (varIds rest).map (fun n => n + 1) := by
            simp only [varIds, varIdsFrom, isVarLeaf, if_true]
            rw [varIdsFrom_succ rest 0]
          rw [hv] at h ⊢
          cases outs with
          | nil => simp at h
          | cons o os =>
              rw [List.map_cons, List.map_cons, List.zip_cons_cons,
                toRLeaf]
              show scatterFold
                ((RLeaf.variable v :: rest.map toRLeaf).set 0
                  (RLeaf.tensor o))
                (((varIds rest).map fun n => n + 1).zip
                  (os.map RLeaf.tensor)) = _
              rw [List.set_cons_zero, scatterFold_shift]
              rw [scatterWalk]
              rw [ih os (by simpa using h)]

theorem scatterWalk_length (leaves : List OutLeaf)
    (outs : List VarBase) :
    (scatterWalk leaves outs).length = leaves.length := by
  induction leaves generalizing outs with
  | nil => rfl
  | cons l rest ih =>
      cases l with
      | other s => simp [scatterWalk, ih]
      | var v =>
          cases outs with
          | nil => simp [scatterWalk, ih]
          | cons o os => simp [scatterWalk, ih]

theorem sameShapeList_length (rs : NestedList α) (xs : NestedList β)
    (h : sameShapeList rs xs = true) : lengthNL rs = lengthNL xs := by
  cases rs with
  | nil => cases xs with
      | nil => rfl
      | cons y ys => simp [sameShapeList] at h
  | cons r rs' =>
      cases xs with
      | nil => simp [sameShapeList] at h
      | cons y ys =>
          simp only [sameShapeList, Bool.and_eq_true] at h
          simp [lengthNL, sameShapeList_length rs' ys h.2]

theorem unwrap1_of_not_single (rs : NestedList RLeaf)
    (h : lengthNL rs ≠ 1) :
    unwrap1 (Nested.node rs) = Nested.node rs := by
  cases rs with
  | nil => rfl
  | cons r rs' =>
      cases rs' with
      | nil => exact absurd rfl h
      | cons r2 rs'' => rfl

/-- C4 counterexample: for the one-element output template `[y]` and a
non-sentinel executed tensor, `_restore_out` returns the bare tensor,
not a one-element sequence — the restored result is not isomorphic to
the template even though sentinel stripping is not involved (the tensor
is not a sentinel).  The deviation happens in the restore step itself,
refuting the claim that deviations arise only from sentinel
stripping. -/
theorem C4_singleton_unwrap_counterexample :
    restore_out tmplSingle [yVB] =
      some (Nested.leaf (RLeaf.tensor yVB)) ∧
    sameShape (Nested.leaf (RLeaf.tensor yVB)) tmplSingle = false ∧
    is_no_value (PyVal.varBase yVB) = false :=
  ⟨rfl, rfl, by decide⟩

/-- C4 (amended): given one executed tensor per recorded tensor
position, `_restore_out` rebuilds the template's nested structure with
the executed tensors scattered into the recorded tensor positions in
order and non-tensor leaves passed through unchanged — except that a
one-element top-level sequence is unwrapped to its sole element during
restoration; for any top-level sequence with a different element count
the result is exactly isomorphic to the template. -/
theorem C4_restore_out_spec (template : Nested OutLeaf)
    (out_vars : List VarBase)
    (h : out_vars.length = (varIds (flattenN template)).length) :
    ∃ r : Nested RLeaf,
      sameShape r template = true ∧
      flattenN r = scatterWalk (flattenN template) out_vars ∧
      restore_out template out_vars = some (unwrap1 r) ∧
      (∀ xs : NestedList OutLeaf, template = Nested.node xs →
        lengthNL xs ≠ 1 → restore_out template out_vars = some r) := by
  have hsc := scatter_eq_walk (flattenN template) out_vars h
  have hlen : (scatterWalk (flattenN template) out_vars).length =
      (flattenN template).length := scatterWalk_length _ _
  obtain ⟨r, hr⟩ := restore_total template
    (scatterWalk (flattenN template) out_vars) hlen
  obtain ⟨h1, h2, _⟩ := restore_sound _ _ _ hr
  have hmain : restore_out template out_vars = some (unwrap1 r) := by
    simp only [restore_out]
    rw [hsc, hr]
  refine ⟨r, h2, h1, hmain, ?_⟩
  intro xs htm hne
  subst htm
  cases r with
  | leaf a => simp [sameShape] at h2
  | node rs =>
      have hl : lengthNL rs = lengthNL xs :=
        sameShapeList_length rs xs (by simpa [sameShape] using h2)
      have hu : unwrap1 (Nested.node rs) = Nested.node rs :=
        unwrap1_of_not_single rs (by omega)
      rw [hmain, hu]

theorem C4_restore_out_spec_witness :
    ∃ r : Nested RLeaf,
      sameShape r tmplPair = true ∧
      flattenN r = scatterWalk (flattenN tmplPair) [yVB] ∧
      restore_out tmplPair [yVB] = some (unwrap1 r) ∧
      (∀ xs : NestedList OutLeaf, tmplPair = Nested.node xs →
        lengthNL xs ≠ 1 → restore_out tmplPair [yVB] = some r) :=
  C4_restore_out_spec tmplPair [yVB] (by decide)
